import Mathlib

/-!
Verification of the request-dispatch core of the `expense-api-gateway`
repository (Go).  The definitions below are a shallow embedding of the
source files:

* `internal/service/proxy/route_parser.go` (pattern translation, route match)
* the proxy service file (`ProxyService.ProxyRequest`, `ProxyGinRequest`,
  `buildTargetURL`)
* `internal/service/discovery/discovery.go` (registry, discover, lock usage)
* the rate-limit middleware file (`MemoryRateLimiter`, `RateLimitMiddleware`)

Strings are modelled as `List Char`; time instants as `Int`; Go maps as
association lists (Go map iteration order is nondeterministic, so no theorem
below depends on the order in which entries are listed).
-/

namespace Gateway

/-! ### Association lists standing in for Go maps (value type generic) -/

def lookupA {α : Type} : List (List Char × α) → List Char → Option α
  | [], _ => none
  | (k', v) :: rest, k => if k' == k then some v else lookupA rest k

def setA {α : Type} : List (List Char × α) → List Char → α → List (List Char × α)
  | [], k, v => [(k, v)]
  | (k', v') :: rest, k, v =>
    if k' == k then (k, v) :: rest else (k', v') :: setA rest k v

def removeA {α : Type} (m : List (List Char × α)) (k : List Char) : List (List Char × α) :=
  m.filter (fun e => !(e.fst == k))

/-! ### `patternToRegex` (route_parser.go)

Go builds the matcher string as
`regexp.QuoteMeta`, then `strings.ReplaceAll "\*" -> ".*"`, then
`ReplaceAllString` of the regular expression (backslash, slash, colon,
one-or-more non-slash) by `/[^/]+`, then appends `$` unless already a suffix.
-/

/-- The 14 bytes Go's `regexp.QuoteMeta` escapes (`specialBytes`). -/
def goRegexSpecials : List Char :=
  ['\\', '.', '+', '*', '?', '(', ')', '|', '[', ']',
   Char.ofNat 0x7b, Char.ofNat 0x7d, '^', '$']

def specialChar (c : Char) : Bool := goRegexSpecials.contains c

/-- `regexp.QuoteMeta`: put a backslash before every special byte. -/
def goQuoteMeta : List Char → List Char
  | [] => []
  | c :: cs =>
    if specialChar c then '\\' :: c :: goQuoteMeta cs else c :: goQuoteMeta cs

/-- `strings.ReplaceAll(pattern, "\*", ".*")`: leftmost, non-overlapping. -/
def replaceBackslashStar : List Char → List Char
  | '\\' :: '*' :: cs => '.' :: '*' :: replaceBackslashStar cs
  | c :: cs => c :: replaceBackslashStar cs
  | [] => []

/-- The replacement text `/[^/]+` used by route_parser.go. -/
def paramRepl : List Char := ['/', '[', '^', '/', ']', '+']

/-- `regexp.MustCompile` of backslash-slash-colon followed by one or more
non-slash characters, `ReplaceAllString` with `/[^/]+`: scan left to right,
replace each leftmost match, resume after the matched text.  The flag is
true while the scanner is inside the greedy non-slash run of a match it has
already replaced (those characters belong to the matched text and are
dropped); a slash ends the run and scanning resumes there.  When the
three-character head backslash-slash-colon is followed by a slash (so
the one-or-more class cannot match) no match starts at this position, and
none can start at the following slash or colon either, so all four
characters are emitted unchanged. -/
def replaceParamGo : Bool → List Char → List Char
  | _, [] => []
  | true, c :: cs =>
    if c == '/' then c :: replaceParamGo false cs else replaceParamGo true cs
  | false, '\\' :: '/' :: ':' :: [] => ['\\', '/', ':']
  | false, '\\' :: '/' :: ':' :: r :: rest' =>
    if r == '/' then '\\' :: '/' :: ':' :: r :: replaceParamGo false rest'
    else paramRepl ++ replaceParamGo true rest'
  | false, c :: cs => c :: replaceParamGo false cs

def replaceParam (l : List Char) : List Char := replaceParamGo false l

/-- `patternToRegex` from route_parser.go. -/
def patternToRegex (p : List Char) : List Char :=
  let q := replaceParam (replaceBackslashStar (goQuoteMeta p))
  if q.getLast? == some '$' then q else q ++ ['$']

/-! ### A matcher for the regex fragment `patternToRegex` can produce

Every string `patternToRegex` emits is a sequence of: escaped literals,
plain literals, the two-character wildcard (dot star), the class `[^/]+`,
and a final end-of-text anchor.  `reSearch` gives Go's unanchored
`regexp.MatchString` semantics (a match anywhere in the subject). -/

inductive RAtom : Type
  | lit (c : Char)
  | anyStar
  | nonSlashPlus
  | endAnchor
deriving DecidableEq

def parseRegex : List Char → Option (List RAtom)
  | [] => some []
  | '\\' :: [] => none
  | '\\' :: c2 :: cs2 => (parseRegex cs2).map (fun r => RAtom.lit c2 :: r)
  | '.' :: '*' :: cs2 => (parseRegex cs2).map (fun r => RAtom.anyStar :: r)
  | '[' :: '^' :: '/' :: ']' :: '+' :: cs2 =>
    (parseRegex cs2).map (fun r => RAtom.nonSlashPlus :: r)
  | '$' :: cs => (parseRegex cs).map (fun r => RAtom.endAnchor :: r)
  | c :: cs => if specialChar c then none else (parseRegex cs).map (fun r => RAtom.lit c :: r)

/-- Remainders of the subject after one atom consumes a piece of its front:
a literal consumes exactly itself; the dot-star wildcard consumes any amount
(every suffix remains possible); the class `[^/]+` consumes one or more
non-slash characters; the end anchor consumes nothing but requires the very
end of the subject (Go's default, no multiline mode). -/
def nonSlashSuffixes : List Char → List (List Char)
  | [] => []
  | c :: s => if c == '/' then [] else s :: nonSlashSuffixes s

def stepAtom (a : RAtom) (s : List Char) : List (List Char) :=
  match a with
  | RAtom.lit c =>
    match s with
    | [] => []
    | c' :: s' => if c == c' then [s'] else []
  | RAtom.anyStar => s.tails
  | RAtom.nonSlashPlus => nonSlashSuffixes s
  | RAtom.endAnchor =>
    match s with
    | [] => [[]]
    | _ :: _ => []

/-- The regex matches starting exactly at the front of `s` (consuming any
prefix of it). -/
def matchHere : List RAtom → List Char → Bool
  | [], _ => true
  | a :: rs, s => (stepAtom a s).any (fun t => matchHere rs t)

/-- Go `regexp.MatchString`: search for a match at any start position. -/
def reSearch (r : List RAtom) (s : List Char) : Bool :=
  s.tails.any (fun t => matchHere r t)

/-- `matchRoutePattern` from route_parser.go (`MatchString`; the error branch
returns false, matching the `none` case of the fragment parser). -/
def matchRoutePattern (pat path : List Char) : Bool :=
  match parseRegex (patternToRegex pat) with
  | some r => reSearch r path
  | none => false

/-! ### Method matching and route lookup (route_parser.go) -/

def asciiLower (c : Char) : Char :=
  if 'A' ≤ c ∧ c ≤ 'Z' then Char.ofNat (c.toNat + 32) else c

/-- `strings.EqualFold` restricted to ASCII (HTTP method names are ASCII). -/
def equalFold (a b : List Char) : Bool := a.map asciiLower == b.map asciiLower

def matchMethod (allowed : List (List Char)) (m : List Char) : Bool :=
  allowed.isEmpty || allowed.any (fun x => equalFold x m)

structure RouteConfig where
  id : List Char
  pattern : List Char
  service : List Char
  methods : List (List Char)
  authRequired : Bool
  roles : List (List Char)
  timeout : Int
  maxBodySize : Int
  streaming : Bool
  headers : List (List Char × List Char)
  stripPfx : Bool
  rewritePath : List Char
deriving DecidableEq

structure ServiceConfig where
  hosts : List (List Char)
  port : Nat
  healthCheck : List Char
  timeout : Int
  maxBodySize : Int
  headers : List (List Char × List Char)
deriving DecidableEq

structure RouteGroup where
  name : List Char
  pfx : List Char
  middleware : List (List Char)
  routes : List RouteConfig
deriving DecidableEq

structure ParserState where
  groups : List RouteGroup
  routes : List RouteConfig
  services : List (List Char × ServiceConfig)
deriving DecidableEq

inductive MatchResult : Type
  | ok (route : RouteConfig) (svc : ServiceConfig)
  | svcMissing (name : List Char)
  | noRoute
deriving DecidableEq

def findRoute (rs : List RouteConfig) (method path : List Char) : Option RouteConfig :=
  rs.find? (fun r => matchRoutePattern r.pattern path && matchMethod r.methods method)

def findGroupRoute : List RouteGroup → List Char → List Char → Option RouteConfig
  | [], _, _ => none
  | g :: gs, method, path =>
    if g.pfx.isPrefixOf path then
      match findRoute g.routes method path with
      | some r => some r
      | none => findGroupRoute gs method path
    else findGroupRoute gs method path

/-- `RouteParser.MatchRoute`: scan groups whose configured path piece is a
literal start of the request path, then the global routes; the first route
whose pattern and method match determines the result, and a matched route
whose service is absent from the services map is a distinct error. -/
def MatchRoute (st : ParserState) (method path : List Char) : MatchResult :=
  match findGroupRoute st.groups method path with
  | some r =>
    match lookupA st.services r.service with
    | some svc => .ok r svc
    | none => .svcMissing r.service
  | none =>
    match findRoute st.routes method path with
    | some r =>
      match lookupA st.services r.service with
      | some svc => .ok r svc
      | none => .svcMissing r.service
    | none => .noRoute

/-! ### Service discovery (`internal/service/discovery/discovery.go`) -/

inductive HealthStatus : Type
  | healthy
  | unhealthy
  | critical
deriving DecidableEq

structure Inst where
  id : List Char
  name : List Char
  addr : List Char
  port : Nat
  tags : List (List Char)
  meta : List (List Char × List Char)
  health : HealthStatus
  lastSeen : Int
deriving DecidableEq

/-- `InMemoryDiscovery.services`: service name to (instance id to instance). -/
structure DiscoveryM where
  services : List (List Char × List (List Char × Inst))
deriving DecidableEq

def emptyDiscovery : DiscoveryM := ⟨[]⟩

/-- `InMemoryDiscovery.Register`: upsert under the instance's service name,
stamping only the last-seen time; every other field (health included) is
stored exactly as submitted. -/
def Register (d : DiscoveryM) (inst : Inst) (now : Int) : DiscoveryM :=
  let m := (lookupA d.services inst.name).getD []
  let inst' := { inst with lastSeen := now }
  ⟨setA d.services inst.name (setA m inst.id inst')⟩

/-- Inner loop of `InMemoryDiscovery.Deregister`: find the first service
whose instance map holds the id, delete the instance there (the service
entry itself stays, possibly empty); `none` when no service holds the id.
Go iterates its map in nondeterministic order; the model fixes list order,
and no theorem below depends on which entry is removed first. -/
def deregIn : List (List Char × List (List Char × Inst)) → List Char →
    Option (List (List Char × List (List Char × Inst)))
  | [], _ => none
  | (name, insts) :: rest, id =>
    if (lookupA insts id).isSome then some ((name, removeA insts id) :: rest)
    else (deregIn rest id).map (fun r => (name, insts) :: r)

def Deregister (d : DiscoveryM) (id : List Char) : Option DiscoveryM :=
  (deregIn d.services id).map (fun s => ⟨s⟩)

/-- `InMemoryDiscovery.Discover`: error when the service name has no entry;
otherwise the stored instances whose health is `healthy`. -/
def Discover (d : DiscoveryM) (s : List Char) : Option (List Inst) :=
  match lookupA d.services s with
  | none => none
  | some m => some ((m.map Prod.snd).filter (fun i => decide (i.health = HealthStatus.healthy)))

/-- All instances currently stored under a service name. -/
def storedInstances (d : DiscoveryM) (s : List Char) : List Inst :=
  ((lookupA d.services s).getD []).map Prod.snd

/-- The instance stored under a service name and instance id. -/
def storedAt (d : DiscoveryM) (s id : List Char) : Option Inst :=
  match lookupA d.services s with
  | none => none
  | some m => lookupA m id

/-- The instance `InMemoryDiscovery.Start` builds for each configured host
before registering it: id is name-dash-host and health starts `healthy`. -/
def bootstrapInstance (serviceName host : List Char) (port : Nat) (now : Int) : Inst :=
  { id := serviceName ++ '-' :: host
    name := serviceName
    addr := host
    port := port
    tags := []
    meta := []
    health := HealthStatus.healthy
    lastSeen := now }

/-- Registry operations reachable through the public surface
(`Register` directly or via bootstrap, `Deregister`; a failed deregister
leaves the registry unchanged). -/
inductive DiscOp : Type
  | reg (inst : Inst) (now : Int)
  | dereg (id : List Char)
deriving DecidableEq

def applyOp (d : DiscoveryM) : DiscOp → DiscoveryM
  | .reg inst now => Register d inst now
  | .dereg id => (Deregister d id).getD d

def runOps (ops : List DiscOp) : DiscoveryM := ops.foldl applyOp emptyDiscovery

/-- Whether the operation sequence ever registered anything under name `s`. -/
def registeredB (ops : List DiscOp) (s : List Char) : Bool :=
  ops.any (fun op =>
    match op with
    | .reg inst _ => inst.name == s
    | .dereg _ => false)

/-! ### Proxy forwarder (`ProxyService`) -/

structure TargetURL where
  host : List Char
  port : Nat
  path : List Char
deriving DecidableEq

/-- `strings.TrimPrefix`. -/
def trimPfx (s p : List Char) : List Char :=
  if p.isPrefixOf s then s.drop p.length else s

/-- The path rewrite inside `ProxyService.buildTargetURL`: strip-prefix
removes the route's pattern as a literal front piece of the path; otherwise
a non-empty rewrite path replaces the path wholesale. -/
def rewriteProxyPath (route : RouteConfig) (path : List Char) : List Char :=
  if route.stripPfx then trimPfx path route.pattern
  else if route.rewritePath.isEmpty then path
  else route.rewritePath

/-- `ProxyService.buildTargetURL` (scheme is always http; the service
argument is unused by the Go function's URL construction). -/
def buildTargetURL (inst : Inst) (path : List Char) (route : RouteConfig) : TargetURL :=
  ⟨inst.addr, inst.port, rewriteProxyPath route path⟩

inductive GinResult : Type
  | maintenance503
  | routeNotFound404
  | svcUnavailable503
  | proxied (target : TargetURL)
deriving DecidableEq

/-- `ProxyService.ProxyGinRequest`: maintenance flag first, then route
match (any match error is answered with the 404 route-not-found body),
then discovery (error or empty list is 503), then the request is handed to
the reverse proxy aimed at the first discovered instance. -/
def ProxyGinRequest (maint : Bool) (st : ParserState) (disc : DiscoveryM)
    (method path : List Char) : GinResult :=
  if maint then .maintenance503
  else
    match MatchRoute st method path with
    | .noRoute => .routeNotFound404
    | .svcMissing _ => .routeNotFound404
    | .ok route _ =>
      match Discover disc route.service with
      | none => .svcUnavailable503
      | some [] => .svcUnavailable503
      | some (i :: _) => .proxied (buildTargetURL i path route)

inductive PRResult : Type
  | notFound404
  | unavailable503
  | forwarded (target : TargetURL)
deriving DecidableEq

/-- `ProxyService.ProxyRequest`: route match (any error yields the 404
result), discovery (error or empty yields 503), then the outbound request
is built for the first instance and executed.  The Go method never reads
`p.maintenanceMode`; the flag is still a field of the service, so it is
carried here as an argument the body ignores. -/
def ProxyRequestModel (_maint : Bool) (st : ParserState) (disc : DiscoveryM)
    (method path : List Char) : PRResult :=
  match MatchRoute st method path with
  | .noRoute => .notFound404
  | .svcMissing _ => .notFound404
  | .ok route _ =>
    match Discover disc route.service with
    | none => .unavailable503
    | some [] => .unavailable503
    | some (i :: _) => .forwarded (buildTargetURL i path route)

/-! ### Rate limiter (`MemoryRateLimiter`, `RateLimitMiddleware`) -/

structure MemoryRateLimiter where
  requests : List (List Char × List Int)
  limit : Nat
  window : Int
deriving DecidableEq

def initLimiter (limit : Nat) (window : Int) : MemoryRateLimiter :=
  ⟨[], limit, window⟩

/-- `MemoryRateLimiter.Allow`: prune the key's timestamps to those strictly
after now minus the window (the pruned list is written back even on
rejection, and a missing key is initialised to an empty list), reject if the
pruned count has reached the limit, otherwise record `now` and admit. -/
def MemoryRateLimiter.Allow (r : MemoryRateLimiter) (key : List Char) (now : Int) :
    Bool × MemoryRateLimiter :=
  let windowStart := now - r.window
  let times := (lookupA r.requests key).getD []
  let valid := times.filter (fun t => decide (windowStart < t))
  if r.limit ≤ valid.length then
    (false, { r with requests := setA r.requests key valid })
  else
    (true, { r with requests := setA r.requests key (valid ++ [now]) })

/-- `MemoryRateLimiter.Reset`: drop the key's history. -/
def MemoryRateLimiter.Reset (r : MemoryRateLimiter) (key : List Char) : MemoryRateLimiter :=
  { r with requests := removeA r.requests key }

/-- A sequence of `Allow` calls for one key at the given instants, returning
the per-call decisions and the final limiter state. -/
def runAllow (r : MemoryRateLimiter) (key : List Char) :
    List Int → List Bool × MemoryRateLimiter
  | [] => ([], r)
  | t :: ts =>
    let s := r.Allow key t
    let rest := runAllow s.2 key ts
    (s.1 :: rest.1, rest.2)

def globalKey : List Char := "global".toList

structure RateLimitMiddleware where
  limiters : List (List Char × MemoryRateLimiter)
  globalLimiter : Option MemoryRateLimiter
deriving DecidableEq

/-- `RateLimitMiddleware.ResetRateLimit`: reset the named limiter under its
own key when one exists, and always reset the global limiter's
`"global"` key when a global limiter is present. -/
def RateLimitMiddleware.ResetRateLimit (m : RateLimitMiddleware) (key : List Char) :
    RateLimitMiddleware :=
  let lims :=
    match lookupA m.limiters key with
    | some l => setA m.limiters key (l.Reset key)
    | none => m.limiters
  let g :=
    match m.globalLimiter with
    | some gl => some (gl.Reset globalKey)
    | none => none
  ⟨lims, g⟩

/-! ### Lock usage of the registry (`discovery.go`)

`InMemoryDiscovery` guards its maps with one `sync.RWMutex`.  Go's RWMutex
is not reentrant: `RLock` blocks while any goroutine (the caller included)
holds the write lock, and a second `Lock` by the holder blocks forever.
The traces below transcribe, in order, the lock operations the registry
methods perform on that mutex; `execLocks` runs one goroutine's trace and
reports whether it runs to completion or blocks on itself. -/

inductive LockOp : Type
  | wlock
  | wunlock
  | rlock
  | runlock
deriving DecidableEq

inductive LockOutcome : Type
  | completed
  | deadlock
deriving DecidableEq

/-- Run a single goroutine's lock trace; the flag says whether the write
lock is currently held by this goroutine. -/
def execLocks : List LockOp → Bool → LockOutcome
  | [], _ => .completed
  | .wlock :: rest, false => execLocks rest true
  | .wlock :: _, true => .deadlock
  | .wunlock :: rest, _ => execLocks rest false
  | .rlock :: rest, false => execLocks rest false
  | .rlock :: _, true => .deadlock
  | .runlock :: rest, b => execLocks rest b

/-- `Discover` takes and releases the read lock. -/
def discoverOps : List LockOp := [.rlock, .runlock]

/-- `notifyWatchers`: when subscribers exist for the service it calls
`Discover` (no lock operations of its own; the channel send is a
non-blocking select). -/
def notifyWatchersOps (hasWatchers : Bool) : List LockOp :=
  if hasWatchers then discoverOps else []

/-- `Register`: take the write lock, mutate, call `notifyWatchers`, then
release the (deferred) write lock. -/
def registerOps (hasWatchers : Bool) : List LockOp :=
  .wlock :: (notifyWatchersOps hasWatchers ++ [.wunlock])

/-! ### Concrete configurations used by the claim evaluations -/

/-- A pattern with no regex metacharacter (so `QuoteMeta` leaves it alone). -/
def plainPat (p : List Char) : Bool := p.all (fun c => !(specialChar c))

/-- Whether `MatchRoute` produced one of its two error results. -/
def isMatchErr : MatchResult → Bool
  | .ok _ _ => false
  | .svcMissing _ => true
  | .noRoute => true

def defaultSvcCfg : ServiceConfig :=
  { hosts := ["10.0.0.1".toList], port := 9000, healthCheck := "/health".toList,
    timeout := 0, maxBodySize := 0, headers := [] }

def mkRoute (pat svc : List Char) (methods : List (List Char)) (strip : Bool) : RouteConfig :=
  { id := [], pattern := pat, service := svc, methods := methods,
    authRequired := false, roles := [], timeout := 0, maxBodySize := 0,
    streaming := false, headers := [], stripPfx := strip, rewritePath := [] }

def getM : List Char := "GET".toList

/-- The spec scenario route: pattern `/orders/:id`, service `order-svc`, GET. -/
def ordersRoute : RouteConfig :=
  mkRoute "/orders/:id".toList "order-svc".toList [getM] false

def ordersState : ParserState :=
  ⟨[], [ordersRoute], [("order-svc".toList, defaultSvcCfg)]⟩

/-- One healthy instance at 10.0.0.1:9000 for a given service name. -/
def healthyInst (svc : List Char) : Inst :=
  { id := "i1".toList, name := svc, addr := "10.0.0.1".toList, port := 9000,
    tags := [], meta := [], health := HealthStatus.healthy, lastSeen := 0 }

def oneInstDiscovery (svc : List Char) : DiscoveryM :=
  ⟨[(svc, [("i1".toList, healthyInst svc)])]⟩

/-- The spec scenario strip route: strip_prefix with pattern `/api/v1/users`. -/
def usersStripRoute : RouteConfig :=
  mkRoute "/api/v1/users".toList "user-svc".toList [] true

def usersStripState : ParserState :=
  ⟨[], [usersStripRoute], [("user-svc".toList, defaultSvcCfg)]⟩

/-- The same route with a trailing wildcard so that it can actually match. -/
def usersWildRoute : RouteConfig :=
  mkRoute "/api/v1/users/*".toList "user-svc".toList [] true

def usersWildState : ParserState :=
  ⟨[], [usersWildRoute], [("user-svc".toList, defaultSvcCfg)]⟩

def usersReqPath : List Char := "/api/v1/users/42/profile".toList

/-- A route whose target service is absent from the services map. -/
def ghostRoute : RouteConfig := mkRoute "/x".toList "ghost".toList [] false

def ghostState : ParserState := ⟨[], [ghostRoute], []⟩

/-- A matchable route with a healthy backend, for the maintenance claim. -/
def xRoute : RouteConfig := mkRoute "/x".toList "x-svc".toList [] false

def xState : ParserState := ⟨[], [xRoute], [("x-svc".toList, defaultSvcCfg)]⟩

/-- An administratively submitted instance carrying `critical` health. -/
def critInst : Inst :=
  { id := "i9".toList, name := "svc".toList, addr := "10.0.0.2".toList, port := 1,
    tags := [], meta := [], health := HealthStatus.critical, lastSeen := 0 }

/-- A middleware state with only a global limiter configured. -/
def sampleMW : RateLimitMiddleware := ⟨[], some (initLimiter 2 10)⟩

/-- Register a healthy instance, then a critical one, for service svc. -/
def sampleOps : List DiscOp :=
  [DiscOp.reg (healthyInst "svc".toList) 0, DiscOp.reg critInst 1]


/-! ## Helper lemmas about the association-list map operations -/

theorem lookupA_setA_self {α : Type} (m : List (List Char × α)) (k : List Char) (v : α) :
    lookupA (setA m k v) k = some v := by
  induction m with
  | nil => simp [setA, lookupA]
  | cons e rest ih =>
    obtain ⟨k', v'⟩ := e
    by_cases h : (k' == k) = true
    · simp [setA, h, lookupA]
    · simp [setA, h, lookupA, ih]

theorem lookupA_setA_ne {α : Type} (m : List (List Char × α)) (k k' : List Char) (v : α)
    (h : k ≠ k') : lookupA (setA m k v) k' = lookupA m k' := by
  induction m with
  | nil => simp [setA, lookupA, beq_eq_false_iff_ne.mpr h]
  | cons e rest ih =>
    obtain ⟨k0, v0⟩ := e
    by_cases h0 : (k0 == k) = true
    · have hk0 : k0 = k := by simpa using h0
      subst hk0
      simp [setA, lookupA, beq_eq_false_iff_ne.mpr h]
    · simp [setA, h0, lookupA, ih]

theorem lookupA_removeA_self {α : Type} (m : List (List Char × α)) (k : List Char) :
    lookupA (removeA m k) k = none := by
  induction m with
  | nil => simp [removeA, lookupA]
  | cons e rest ih =>
    obtain ⟨k', v'⟩ := e
    by_cases h : (k' == k) = true
    · simpa [removeA, h] using ih
    · simpa [removeA, lookupA, h] using ih

/-! ## C1 — `:name` path-parameter segments -/

/-- C1 (code evaluation at the failing input).  The claim says a `:name`
segment matches one non-slash path segment, so `MatchRoute "GET"
"/orders/77"` should return the route with pattern `/orders/:id`.  In the
code the parameter rewrite inside `patternToRegex` searches for a literal
backslash before the slash-colon, which `QuoteMeta` never produces (it does
not escape slashes), so the rewrite never fires: `/orders/:id` compiles to
the literal matcher `/orders/:id$`, `GET /orders/77` finds no route, and
the pattern only matches the literal path `/orders/:id`. -/
theorem claim1_code_eval :
    patternToRegex "/orders/:id".toList = "/orders/:id$".toList ∧
    matchRoutePattern "/orders/:id".toList "/orders/77".toList = false ∧
    MatchRoute ordersState getM "/orders/77".toList = MatchResult.noRoute ∧
    matchRoutePattern "/orders/:id".toList "/orders/:id".toList = true := by
  decide

/-! ## C5 — the maintenance-mode short circuit -/

/-- C5 (amended).  The Gin entry point `ProxyGinRequest` short-circuits to
the 503 maintenance answer before any route matching, for every route
table, registry and request; the lower-level `ProxyService.ProxyRequest`
never consults the maintenance flag (its result is the same whatever the
flag's value), so the short circuit holds for the Gin forwarding path
only. -/
theorem claim5_amended :
    (∀ (st : ParserState) (disc : DiscoveryM) (m p : List Char),
      ProxyGinRequest true st disc m p = GinResult.maintenance503) ∧
    (∀ (b b' : Bool) (st : ParserState) (disc : DiscoveryM) (m p : List Char),
      ProxyRequestModel b st disc m p = ProxyRequestModel b' st disc m p) :=
  ⟨fun _ _ _ _ => rfl, fun _ _ _ _ _ _ => rfl⟩

/-- C5 (counterexample).  With maintenance enabled, the `ProxyRequest`
forwarding path still matches the route and forwards to the backend
instead of answering 503: not every forwarding attempt short-circuits. -/
theorem claim5_counterexample :
    ProxyRequestModel true xState (oneInstDiscovery "x-svc".toList) getM "/x".toList =
      PRResult.forwarded ⟨"10.0.0.1".toList, 9000, "/x".toList⟩ ∧
    ProxyRequestModel true xState (oneInstDiscovery "x-svc".toList) getM "/x".toList ≠
      PRResult.unavailable503 := by
  decide

/-! ## C6 — strip-prefix forwarding -/

/-- C6 (code evaluation at the failing input).  The claim's scenario cannot
happen: a strip-prefix route whose pattern is the prefix `/api/v1/users`
never matches the longer path `/api/v1/users/42/profile` (the compiled
matcher is anchored at the end), so the dispatcher answers 404 and nothing
is forwarded — even though the path rewrite applied to that route would
indeed produce `/42/profile`.  With the wildcard pattern that does match,
`strings.TrimPrefix` finds no literal `/api/v1/users/*` front piece and
strips nothing. -/
theorem claim6_code_eval :
    MatchRoute usersStripState getM usersReqPath = MatchResult.noRoute ∧
    ProxyGinRequest false usersStripState (oneInstDiscovery "user-svc".toList)
      getM usersReqPath = GinResult.routeNotFound404 ∧
    rewriteProxyPath usersStripRoute usersReqPath = "/42/profile".toList ∧
    MatchRoute usersWildState getM usersReqPath =
      MatchResult.ok usersWildRoute defaultSvcCfg ∧
    rewriteProxyPath usersWildRoute usersReqPath = usersReqPath := by
  decide

/-! ## C7 — health on registration -/

/-- C7 (counterexample).  Registering an instance that carries `critical`
health stores it with `critical` health: registration does not perform the
none-to-healthy transition for administratively submitted instances. -/
theorem claim7_counterexample :
    storedAt (Register emptyDiscovery critInst 5) critInst.name critInst.id =
      some { critInst with lastSeen := 5 } ∧
    HealthStatus.critical ≠ HealthStatus.healthy := by
  decide

/-- C7 (amended).  `Register` stores the submitted instance unchanged apart
from stamping the last-seen time — its health field is whatever the caller
attached — while the instances built by the config-driven bootstrap
(`Start`) are created with `healthy` health, so the none-to-healthy
transition holds for bootstrap registrations only. -/
theorem claim7_amended (d : DiscoveryM) (inst : Inst) (now : Int) :
    storedAt (Register d inst now) inst.name inst.id = some { inst with lastSeen := now } ∧
    (∀ (n h : List Char) (port : Nat) (t : Int),
      (bootstrapInstance n h port t).health = HealthStatus.healthy) := by
  refine ⟨?_, fun _ _ _ _ => rfl⟩
  simp [storedAt, Register, lookupA_setA_self]

/-! ## C8 — watcher notification and the registry lock -/

/-- C8 (code evaluation at the failing input).  `Register` calls
`notifyWatchers` before its deferred unlock runs, so delivery happens while
the write lock is held (third conjunct: the trace brackets `Discover`'s
lock operations inside the write lock); and because `notifyWatchers` calls
`Discover`, which takes the read lock on the same non-reentrant `RWMutex`,
a `Register` for a service that has any watcher deadlocks the registering
goroutine, while a `Register` with no watcher completes. -/
theorem claim8_code_eval :
    execLocks (registerOps true) false = LockOutcome.deadlock ∧
    execLocks (registerOps false) false = LockOutcome.completed ∧
    registerOps true = LockOp.wlock :: (discoverOps ++ [LockOp.wunlock]) := by
  decide

/-! ## C9 — when 404 is returned -/

/-- C9 (counterexample).  A configured route matches `GET /x` but its
target service is absent from the services map; the dispatcher still
answers with the 404 route-not-found result rather than a distinct
error. -/
theorem claim9_counterexample :
    MatchRoute ghostState getM "/x".toList = MatchResult.svcMissing "ghost".toList ∧
    ProxyGinRequest false ghostState emptyDiscovery getM "/x".toList =
      GinResult.routeNotFound404 := by
  decide

/-- C9 (amended).  Outside maintenance mode the dispatcher answers 404
exactly when `MatchRoute` returns one of its two errors — no route matched,
or the first matching route's service is missing from the services map; the
latter is therefore surfaced as 404 as well, not as a distinct error. -/
theorem claim9_amended (st : ParserState) (disc : DiscoveryM) (m p : List Char) :
    ProxyGinRequest false st disc m p = GinResult.routeNotFound404 ↔
      isMatchErr (MatchRoute st m p) = true := by
  cases h : MatchRoute st m p with
  | ok route svc =>
    cases hd : Discover disc route.service with
    | none => simp [ProxyGinRequest, h, hd, isMatchErr]
    | some l =>
      cases l with
      | nil => simp [ProxyGinRequest, h, hd, isMatchErr]
      | cons i rest => simp [ProxyGinRequest, h, hd, isMatchErr]
  | svcMissing n => simp [ProxyGinRequest, h, isMatchErr]
  | noRoute => simp [ProxyGinRequest, h, isMatchErr]

/-! ## C2 — anchoring of plain patterns -/

theorem plainPat_cons {c : Char} {cs : List Char} (h : plainPat (c :: cs) = true) :
    specialChar c = false ∧ plainPat cs = true := by
  refine ⟨by simpa using (List.all_eq_true.mp h) c (List.mem_cons_self c cs), ?_⟩
  exact List.all_eq_true.mpr fun x hx => (List.all_eq_true.mp h) x (List.mem_cons_of_mem c hx)

theorem not_special_facts (c : Char) (h : specialChar c = false) :
    c ≠ '\\' ∧ c ≠ '.' ∧ c ≠ '[' ∧ c ≠ '$' ∧ c ≠ '*' := by
  refine ⟨?_, ?_, ?_, ?_, ?_⟩ <;> intro hc <;> subst hc <;> exact absurd h (by decide)

theorem goQuoteMeta_plain (p : List Char) (h : plainPat p = true) : goQuoteMeta p = p := by
  induction p with
  | nil => rfl
  | cons c cs ih =>
    obtain ⟨hc, hcs⟩ := plainPat_cons h
    simp [goQuoteMeta, hc, ih hcs]

theorem replaceBackslashStar_plain (p : List Char) (h : plainPat p = true) :
    replaceBackslashStar p = p := by
  induction p using replaceBackslashStar.induct with
  | case1 cs ih => exact absurd h (by simp [plainPat, specialChar, goRegexSpecials])
  | case2 c cs hne ih =>
    obtain ⟨hc, hcs⟩ := plainPat_cons h
    rw [replaceBackslashStar]
    · rw [ih hcs]
    · exact hne
  | case3 => rfl

theorem replaceParamGo_plain (b : Bool) (p : List Char) (hb : b = false)
    (h : plainPat p = true) : replaceParamGo b p = p := by
  induction b, p using replaceParamGo.induct with
  | case1 x => cases x <;> rfl
  | case2 c cs h1 ih => exact absurd hb (by decide)
  | case3 c cs h1 ih => exact absurd hb (by decide)
  | case4 => exact absurd h (by decide)
  | case5 r rest h1 ih =>
    have := (plainPat_cons h).1
    exact absurd this (by decide)
  | case6 r rest h1 ih =>
    have := (plainPat_cons h).1
    exact absurd this (by decide)
  | case7 c cs h1 h2 ih =>
    obtain ⟨hc, hcs⟩ := plainPat_cons h
    rw [replaceParamGo]
    · rw [ih rfl hcs]
    · exact h1
    · exact h2

theorem replaceParam_plain (p : List Char) (h : plainPat p = true) : replaceParam p = p :=
  replaceParamGo_plain false p rfl h

theorem plain_getLast_ne_dollar (p : List Char) (h : plainPat p = true) :
    (p.getLast? == some '$') = false := by
  induction p with
  | nil => decide
  | cons c cs ih =>
    obtain ⟨hc, hcs⟩ := plainPat_cons h
    cases cs with
    | nil =>
      have hne : c ≠ '$' := (not_special_facts c hc).2.2.2.1
      simpa using hne
    | cons d ds => simpa [List.getLast?_cons_cons] using ih hcs

theorem patternToRegex_plain (p : List Char) (h : plainPat p = true) :
    patternToRegex p = p ++ ['$'] := by
  simp only [patternToRegex]
  rw [goQuoteMeta_plain p h, replaceBackslashStar_plain p h, replaceParam_plain p h,
    if_neg (by simp [plain_getLast_ne_dollar p h])]

theorem parseRegex_plain (p : List Char) (h : plainPat p = true) :
    parseRegex (p ++ ['$']) = some (p.map RAtom.lit ++ [RAtom.endAnchor]) := by
  induction p with
  | nil => decide
  | cons c cs ih =>
    obtain ⟨hc, hcs⟩ := plainPat_cons h
    obtain ⟨h1, h2, h3, h4, _⟩ := not_special_facts c hc
    rw [List.cons_append, parseRegex]
    · rw [if_neg (by simp [hc]), ih hcs]
      rfl
    all_goals intros
    all_goals simp_all

theorem matchHere_lits_end (p : List Char) (s : List Char) :
    matchHere (p.map RAtom.lit ++ [RAtom.endAnchor]) s = true ↔ s = p := by
  induction p generalizing s with
  | nil =>
    cases s with
    | nil => simp [matchHere, stepAtom]
    | cons c s' => simp [matchHere, stepAtom]
  | cons c p' ih =>
    cases s with
    | nil => simp [matchHere, stepAtom]
    | cons c' s' =>
      by_cases hc : c = c'
      · subst hc
        simp [matchHere, stepAtom, ih]
      · simp only [matchHere, stepAtom, List.map_cons, List.cons_append]
        rw [if_neg (by simpa using hc)]
        simp only [List.any_nil, Bool.false_eq_true, false_iff]
        intro hcontra
        rw [List.cons_eq_cons] at hcontra
        exact hc hcontra.1.symm

theorem reSearch_iff (r : List RAtom) (s : List Char) :
    reSearch r s = true ↔ ∃ t, t <:+ s ∧ matchHere r t = true := by
  unfold reSearch
  rw [List.any_eq_true]
  constructor
  · rintro ⟨t, ht, hm⟩
    exact ⟨t, (List.mem_tails t s).mp ht, hm⟩
  · rintro ⟨t, ht, hm⟩
    exact ⟨t, (List.mem_tails t s).mpr ht, hm⟩

/-- C2 (amended).  For every pattern made only of characters that are not
regex metacharacters, the compiled matcher is anchored at the end of the
path but not at its start: the pattern matches exactly the paths it is a
suffix of.  Prefix-only occurrences are rejected, but the pattern also
matches paths of which it is a proper suffix, such as `/admin` against
`/public/admin`. -/
theorem claim2_amended (p path : List Char) (h : plainPat p = true) :
    matchRoutePattern p path = true ↔ p <:+ path := by
  unfold matchRoutePattern
  rw [patternToRegex_plain p h, parseRegex_plain p h]
  rw [reSearch_iff]
  constructor
  · rintro ⟨t, hts, hm⟩
    rwa [(matchHere_lits_end p t).mp hm] at hts
  · intro hs
    exact ⟨p, hs, (matchHere_lits_end p p).mpr rfl⟩

/-- C2 (counterexample).  The pattern `/admin` matches the path
`/public/admin`, which is not the full path: the compiled matchers are not
anchored at the start. -/
theorem claim2_counterexample :
    matchRoutePattern "/admin".toList "/public/admin".toList = true ∧
    "/public/admin".toList ≠ "/admin".toList := by
  decide

/-- C2 (witness for the amended theorem). -/
theorem claim2_witness :
    matchRoutePattern "/admin".toList "/public/admin".toList = true :=
  (claim2_amended "/admin".toList "/public/admin".toList (by decide)).mpr
    ⟨"/public".toList, by decide⟩

/-! ## C10 — administrative reset clears the global window -/

/-- C10.  For every middleware state holding a global limiter and every
key — including keys that name no existing limiter — `ResetRateLimit`
replaces the global limiter by one whose `"global"` history is erased, so
the next global admission check starts from an empty history and admits
whenever the configured global limit is at least one. -/
theorem claim10_reset_clears_global (m : RateLimitMiddleware) (key : List Char)
    (gl : MemoryRateLimiter) (hg : m.globalLimiter = some gl) :
    (m.ResetRateLimit key).globalLimiter = some (gl.Reset globalKey) ∧
    lookupA (gl.Reset globalKey).requests globalKey = none ∧
    (∀ now : Int, 1 ≤ gl.limit → ((gl.Reset globalKey).Allow globalKey now).1 = true) := by
  refine ⟨?_, lookupA_removeA_self _ _, ?_⟩
  · simp [RateLimitMiddleware.ResetRateLimit, hg]
  · intro now hl
    simp only [MemoryRateLimiter.Allow, MemoryRateLimiter.Reset, lookupA_removeA_self,
      Option.getD_none, List.filter_nil, List.length_nil]
    rw [if_neg (by omega)]

/-- C10 (witness). -/
theorem claim10_witness :
    (RateLimitMiddleware.ResetRateLimit sampleMW "k".toList).globalLimiter =
      some ((initLimiter 2 10).Reset globalKey) ∧
    lookupA ((initLimiter 2 10).Reset globalKey).requests globalKey = none ∧
    (((initLimiter 2 10).Reset globalKey).Allow globalKey 7).1 = true := by
  have h := claim10_reset_clears_global sampleMW "k".toList (initLimiter 2 10) rfl
  exact ⟨h.1, h.2.1, h.2.2 7 (by decide)⟩

/-! ## C4 — discover: not-found versus empty, healthy only -/

theorem lookupA_Register_isSome (d : DiscoveryM) (inst : Inst) (now : Int) (s : List Char) :
    (lookupA (Register d inst now).services s).isSome =
      ((inst.name == s) || (lookupA d.services s).isSome) := by
  by_cases h : inst.name = s
  · subst h
    simp [Register, lookupA_setA_self]
  · simp [Register, lookupA_setA_ne _ _ _ _ h, beq_eq_false_iff_ne.mpr h]

theorem deregIn_lookup_isSome (id s : List Char) :
    ∀ (m m' : List (List Char × List (List Char × Inst))), deregIn m id = some m' →
    (lookupA m' s).isSome = (lookupA m s).isSome := by
  intro m
  induction m with
  | nil => intro m' hm; simp [deregIn] at hm
  | cons e rest ih =>
    obtain ⟨name, insts⟩ := e
    intro m' hm
    by_cases h : (lookupA insts id).isSome = true
    · simp only [deregIn, h, if_true] at hm
      have hm' := Option.some_inj.mp hm
      subst hm'
      cases hb : (name == s) <;> simp [lookupA, hb]
    · simp only [deregIn, h, Bool.false_eq_true, if_false, Option.map_eq_some'] at hm
      obtain ⟨r, hr, rfl⟩ := hm
      cases hb : (name == s) <;> simp [lookupA, hb, ih r hr]

theorem lookupA_dereg_isSome (d : DiscoveryM) (id s : List Char) :
    (lookupA (applyOp d (DiscOp.dereg id)).services s).isSome =
      (lookupA d.services s).isSome := by
  simp only [applyOp, Deregister]
  cases hm : deregIn d.services id with
  | none => simp [hm]
  | some m' =>
    simp only [hm, Option.map_some', Option.getD_some]
    exact deregIn_lookup_isSome id s d.services m' hm

theorem runOps_lookup_isSome (ops : List DiscOp) (d : DiscoveryM) (s : List Char) :
    (lookupA (List.foldl applyOp d ops).services s).isSome =
      ((lookupA d.services s).isSome || registeredB ops s) := by
  induction ops generalizing d with
  | nil => simp [registeredB]
  | cons op rest ih =>
    cases op with
    | reg inst now =>
      simp only [List.foldl_cons, applyOp]
      rw [ih, lookupA_Register_isSome]
      simp only [registeredB, List.any_cons]
      cases inst.name == s <;> simp [registeredB]
    | dereg id =>
      simp only [List.foldl_cons]
      rw [ih, lookupA_dereg_isSome]
      simp [registeredB, List.any_cons]

/-- C4.  `Discover` on a registry built by any sequence of register and
deregister operations fails (with the not-found error) exactly when
nothing was ever registered under the requested name — deregistering every
instance keeps the service entry alive.  When it succeeds it returns
exactly the stored instances of the service in `healthy` state: every
returned instance is stored and healthy (soundness), and every stored
healthy instance is returned (completeness).  In particular a registered
service all of whose stored instances are unhealthy yields the empty list,
not an error. -/
theorem claim4_discover (ops : List DiscOp) (s : List Char) :
    (Discover (runOps ops) s = none ↔ registeredB ops s = false) ∧
    (∀ l, Discover (runOps ops) s = some l →
      ∀ i, i ∈ l → i.health = HealthStatus.healthy ∧ i ∈ storedInstances (runOps ops) s) ∧
    (∀ l, Discover (runOps ops) s = some l →
      ∀ i, i ∈ storedInstances (runOps ops) s → i.health = HealthStatus.healthy → i ∈ l) ∧
    (registeredB ops s = true →
      (∀ i, i ∈ storedInstances (runOps ops) s → i.health ≠ HealthStatus.healthy) →
      Discover (runOps ops) s = some []) := by
  have hkey : (lookupA (runOps ops).services s).isSome = registeredB ops s := by
    have h := runOps_lookup_isSome ops emptyDiscovery s
    simpa [emptyDiscovery, lookupA] using h
  cases hm : lookupA (runOps ops).services s with
  | none =>
    rw [hm] at hkey
    refine ⟨?_, ?_, ?_, ?_⟩
    · simp [Discover, hm, hkey.symm]
    · intro l hl
      simp [Discover, hm] at hl
    · intro l hl
      simp [Discover, hm] at hl
    · intro hreg
      rw [← hkey] at hreg
      simp at hreg
  | some m =>
    rw [hm] at hkey
    have hst : storedInstances (runOps ops) s = m.map Prod.snd := by
      simp only [storedInstances, hm, Option.getD_some]
    refine ⟨?_, ?_, ?_, ?_⟩
    · simp [Discover, hm, hkey.symm]
    · intro l hl i hi
      simp only [Discover, hm, Option.some_inj] at hl
      subst hl
      have hmem := List.mem_filter.mp hi
      refine ⟨of_decide_eq_true hmem.2, ?_⟩
      rw [hst]
      exact hmem.1
    · intro l hl i hstored hhealthy
      simp only [Discover, hm, Option.some_inj] at hl
      subst hl
      refine List.mem_filter.mpr ⟨?_, decide_eq_true hhealthy⟩
      rw [hst] at hstored
      exact hstored
    · intro _ hunh
      simp only [Discover, hm, Option.some_inj]
      rw [List.filter_eq_nil_iff]
      intro i hi
      have : i ∈ storedInstances (runOps ops) s := by rw [hst]; exact hi
      simpa using hunh i this

/-- C4 (witness): the healthy instance registered by `sampleOps` is stored
and healthy (soundness conjunct) and appears in the discover result
(completeness conjunct). -/
theorem claim4_witness :
    ((healthyInst "svc".toList).health = HealthStatus.healthy ∧
      healthyInst "svc".toList ∈ storedInstances (runOps sampleOps) "svc".toList) ∧
    healthyInst "svc".toList ∈ [healthyInst "svc".toList] := by
  refine ⟨(claim4_discover sampleOps "svc".toList).2.1 [healthyInst "svc".toList] (by decide)
    (healthyInst "svc".toList) (by decide), ?_⟩
  exact (claim4_discover sampleOps "svc".toList).2.2.1 [healthyInst "svc".toList] (by decide)
    (healthyInst "svc".toList) (by decide) (by decide)

/-! ## C3 — sliding-window limiter -/

theorem length_filter_lt_of_mem {α : Type} (p : α → Bool) :
    ∀ (l : List α) (x : α), x ∈ l → p x = false → (l.filter p).length < l.length := by
  intro l
  induction l with
  | nil => intro x hx _; exact absurd hx (List.not_mem_nil x)
  | cons a l' ih =>
    intro x hx hpx
    rcases List.mem_cons.mp hx with rfl | hx'
    · simp only [List.filter_cons, hpx, Bool.false_eq_true, if_false, List.length_cons]
      exact Nat.lt_succ_of_le (List.length_filter_le p l')
    · cases hpa : p a with
      | true =>
        simp only [List.filter_cons, hpa, if_true, List.length_cons]
        exact Nat.succ_lt_succ (ih x hx' hpx)
      | false =>
        simp only [List.filter_cons, hpa, Bool.false_eq_true, if_false, List.length_cons]
        exact Nat.lt_succ_of_lt (ih x hx' hpx)

theorem Allow_single (N : Nat) (W : Int) (key : List Char) (cur : List Int) (t : Int)
    (hfresh : ∀ x ∈ cur, t - x < W) :
    MemoryRateLimiter.Allow ⟨[(key, cur)], N, W⟩ key t =
      if N ≤ cur.length then (false, ⟨[(key, cur)], N, W⟩)
      else (true, ⟨[(key, cur ++ [t])], N, W⟩) := by
  have hlook : lookupA [(key, cur)] key = some cur := by simp [lookupA]
  have hfilter : cur.filter (fun x => decide (t - W < x)) = cur := by
    apply List.filter_eq_self.mpr
    intro x hx
    exact decide_eq_true (by have := hfresh x hx; omega)
  have hset : setA [(key, cur)] key (cur ++ [t]) = [(key, cur ++ [t])] := by simp [setA]
  have hset2 : setA [(key, cur)] key cur = [(key, cur)] := by simp [setA]
  simp only [MemoryRateLimiter.Allow, hlook, Option.getD_some, hfilter, hset, hset2]

theorem runAllow_single (N : Nat) (W : Int) (key : List Char) (ts : List Int) :
    ∀ (cur : List Int),
    (∀ x ∈ cur, ∀ u ∈ ts, u - x < W) →
    (∀ x ∈ ts, ∀ u ∈ ts, u - x < W) →
    cur.length ≤ N →
    runAllow ⟨[(key, cur)], N, W⟩ key ts =
      ((List.range ts.length).map (fun i => decide (cur.length + i < N)),
       ⟨[(key, cur ++ ts.take (N - cur.length))], N, W⟩) := by
  induction ts with
  | nil =>
    intro cur _ _ _
    simp [runAllow]
  | cons t ts ih =>
    intro cur hcur hts hlen
    have hfresh : ∀ x ∈ cur, t - x < W := fun x hx => hcur x hx t (List.mem_cons_self t ts)
    have hts' : ∀ x ∈ ts, ∀ u ∈ ts, u - x < W := fun x hx u hu =>
      hts x (List.mem_cons_of_mem t hx) u (List.mem_cons_of_mem t hu)
    have step := Allow_single N W key cur t hfresh
    by_cases hle : N ≤ cur.length
    · have hNeq : cur.length = N := Nat.le_antisymm hlen hle
      rw [if_pos hle] at step
      have ihr := ih cur (fun x hx u hu => hcur x hx u (List.mem_cons_of_mem t hu)) hts' hlen
      simp only [runAllow, step, ihr, Prod.mk.injEq]
      refine ⟨?_, ?_⟩
      · simp only [List.length_cons]
        rw [List.range_succ_eq_map, List.map_cons, List.map_map, List.cons_eq_cons]
        refine ⟨(decide_eq_false (by omega)).symm, ?_⟩
        apply List.map_congr_left
        intro i _
        exact decide_eq_decide.mpr (by omega)
      · simp [hNeq]
    · rw [if_neg hle] at step
      have hcur' : ∀ x ∈ cur ++ [t], ∀ u ∈ ts, u - x < W := by
        intro x hx u hu
        rcases List.mem_append.mp hx with hx' | hx''
        · exact hcur x hx' u (List.mem_cons_of_mem t hu)
        · rw [List.mem_singleton.mp hx'']
          exact hts t (List.mem_cons_self t ts) u (List.mem_cons_of_mem t hu)
      have hlen' : (cur ++ [t]).length ≤ N := by
        simp only [List.length_append, List.length_singleton]
        omega
      have ihr := ih (cur ++ [t]) hcur' hts' hlen'
      simp only [runAllow, step, ihr, Prod.mk.injEq, List.length_append,
        List.length_singleton]
      refine ⟨?_, ?_⟩
      · simp only [List.length_cons]
        rw [List.range_succ_eq_map, List.map_cons, List.map_map, List.cons_eq_cons]
        refine ⟨(decide_eq_true (by omega)).symm, ?_⟩
        apply List.map_congr_left
        intro i _
        exact decide_eq_decide.mpr (by omega)
      · have hsub : N - cur.length = (N - (cur.length + 1)) + 1 := by omega
        simp only [List.length_append, List.length_singleton, hsub, List.take_succ_cons,
          List.append_assoc, List.singleton_append]

theorem runAllow_init (N : Nat) (W : Int) (key : List Char) (ts : List Int)
    (hN : 1 ≤ N) (hspan : ∀ x ∈ ts, ∀ u ∈ ts, u - x < W) :
    runAllow (initLimiter N W) key ts =
      ((List.range ts.length).map (fun i => decide (i < N)),
       if ts.isEmpty then initLimiter N W else ⟨[(key, ts.take N)], N, W⟩) := by
  cases ts with
  | nil => simp [runAllow, initLimiter]
  | cons t ts =>
    have hfirst : MemoryRateLimiter.Allow (initLimiter N W) key t =
        (true, ⟨[(key, [t])], N, W⟩) := by
      simp only [MemoryRateLimiter.Allow, initLimiter, lookupA, Option.getD_none,
        List.filter_nil, List.length_nil, setA]
      rw [if_neg (by omega)]
      rfl
    have hcur : ∀ x ∈ [t], ∀ u ∈ ts, u - x < W := by
      intro x hx u hu
      rw [List.mem_singleton.mp hx]
      exact hspan t (List.mem_cons_self t ts) u (List.mem_cons_of_mem t hu)
    have hts' : ∀ x ∈ ts, ∀ u ∈ ts, u - x < W := fun x hx u hu =>
      hspan x (List.mem_cons_of_mem t hx) u (List.mem_cons_of_mem t hu)
    have hsingle := runAllow_single N W key ts [t] hcur hts' (by simpa using hN)
    simp only [runAllow, hfirst, hsingle, Prod.mk.injEq, List.isEmpty_cons,
      List.length_singleton]
    refine ⟨?_, ?_⟩
    · simp only [List.length_cons]
      rw [List.range_succ_eq_map, List.map_cons, List.map_map, List.cons_eq_cons]
      refine ⟨(decide_eq_true (by omega)).symm, ?_⟩
      apply List.map_congr_left
      intro i _
      exact decide_eq_decide.mpr (by omega)
    · have hsub : N = (N - 1) + 1 := by omega
      rw [hsub, List.take_succ_cons, List.singleton_append]
      simp

/-- C3.  For a limiter with maximum `N` at least one and window `W`, a key
with no recorded history, and any sequence of `allow` instants pairwise
closer than `W`: the first `N` calls are admitted and every later call is
rejected (the decision list is true exactly at the first `N` positions);
afterwards exactly the first `N` instants are recorded; each rejected call
leaves the limiter state unchanged; and once strictly more than `W` has
elapsed since the first admitted instant, the next `allow` admits again. -/
theorem claim3_sliding_window (N : Nat) (W : Int) (key : List Char) (ts : List Int)
    (hN : 1 ≤ N) (hspan : ∀ x ∈ ts, ∀ u ∈ ts, u - x < W) :
    (runAllow (initLimiter N W) key ts).1 =
      (List.range ts.length).map (fun i => decide (i < N)) ∧
    (lookupA (runAllow (initLimiter N W) key ts).2.requests key).getD [] = ts.take N ∧
    (∀ i : Nat, N ≤ i →
      (runAllow (initLimiter N W) key (ts.take (i + 1))).2 =
        (runAllow (initLimiter N W) key (ts.take i)).2) ∧
    (∀ t1 t' : Int, ts.head? = some t1 → W < t' - t1 →
      ((runAllow (initLimiter N W) key ts).2.Allow key t').1 = true) := by
  have hrun := runAllow_init N W key ts hN hspan
  refine ⟨by rw [hrun], ?_, ?_, ?_⟩
  · rw [hrun]
    cases ts with
    | nil => simp [initLimiter, lookupA]
    | cons t ts' => simp [lookupA]
  · intro i hNi
    have hs1 : ∀ x ∈ ts.take (i + 1), ∀ u ∈ ts.take (i + 1), u - x < W := fun x hx u hu =>
      hspan x (List.take_subset _ _ hx) u (List.take_subset _ _ hu)
    have hs2 : ∀ x ∈ ts.take i, ∀ u ∈ ts.take i, u - x < W := fun x hx u hu =>
      hspan x (List.take_subset _ _ hx) u (List.take_subset _ _ hu)
    rw [runAllow_init N W key _ hN hs1, runAllow_init N W key _ hN hs2]
    cases ts with
    | nil => simp
    | cons t ts' =>
      obtain ⟨j, rfl⟩ : ∃ j, i = j + 1 := ⟨i - 1, by omega⟩
      have hne1 : ((t :: ts').take (j + 1 + 1)).isEmpty = false := by
        simp [List.take_succ_cons]
      have hne2 : ((t :: ts').take (j + 1)).isEmpty = false := by
        simp [List.take_succ_cons]
      simp only [hne1, hne2, Bool.false_eq_true, if_false]
      rw [List.take_take, List.take_take]
      have h1 : min N (j + 1 + 1) = N := by omega
      have h2 : min N (j + 1) = N := by omega
      rw [h1, h2]
  · intro t1 t' hhead hW
    cases ts with
    | nil => simp at hhead
    | cons t ts' =>
      have ht : t = t1 := by simpa using hhead
      subst ht
      have hst : (runAllow (initLimiter N W) key (t :: ts')).2 =
          ⟨[(key, (t :: ts').take N)], N, W⟩ := by
        rw [hrun]
        simp
      rw [hst]
      obtain ⟨M, hM⟩ : ∃ M, N = M + 1 := ⟨N - 1, by omega⟩
      have hmem : t ∈ (t :: ts').take N := by
        rw [hM, List.take_succ_cons]
        exact List.mem_cons_self _ _
      have hpred : (fun x => decide (t' - W < x)) t = false := decide_eq_false (by omega)
      have hlt := length_filter_lt_of_mem (fun x => decide (t' - W < x))
        ((t :: ts').take N) t hmem hpred
      have hlen : ((t :: ts').take N).length ≤ N := List.length_take_le N _
      have hlook : lookupA [(key, (t :: ts').take N)] key = some ((t :: ts').take N) := by
        simp [lookupA]
      simp only [MemoryRateLimiter.Allow, hlook, Option.getD_some]
      rw [if_neg (by omega)]

/-- C3 (witness): limit 2, window 10, instants 0, 1, 2 — the third call is
rejected — and a call at instant 11 (more than the window after the first)
is admitted again. -/
theorem claim3_witness :
    (runAllow (initLimiter 2 10) "k".toList [0, 1, 2]).1 = [true, true, false] ∧
    ((runAllow (initLimiter 2 10) "k".toList [0, 1, 2]).2.Allow "k".toList 11).1 = true := by
  have h := claim3_sliding_window 2 10 "k".toList [0, 1, 2] (by decide) (by decide)
  refine ⟨?_, h.2.2.2 0 11 (by decide) (by decide)⟩
  rw [h.1]
  decide

end Gateway
